import Mathlib

/-!
Verification of the Ranking Aggregation & Canonicalization Pipeline.

Shallow embedding of the core of the repository:
 * `4.merge_and_sort_1st_iPTM_2nd_iPAE_final_stats_batch_processing.py`
   (Score Aggregator: CSV read loop, two-key sort of the concatenated rows),
 * `6.ranking_batch1.2.py`
   (Identifier extraction `extract_identifier`, rank-map construction
   `get_file_rankings`, the per-file join `copy_files_with_rankings`,
   podium-directory clearing),
 * `9_exluding_doublets.py`
   (grouping token `extract_s_number`, the core-identifier extractor
   `extract_core_identifier_with_ag1_fallback`, duplicate resolution
   `process_duplicates`).

Strings are modelled as lists of characters (`FName`); filenames are assumed
newline-free (they come from `glob` over `.pdb` files), so the Python regex
constructs `.*$` used by the scripts are modelled as plain truncation.
Python dictionaries are modelled as association lists in insertion order
(CPython dicts preserve insertion order, and overwriting a key keeps its
original position); dictionary iteration in the fuzzy-match loop therefore
scans the association list front to back.  CSV metric cells
(`Average_i_pTM`, `Average_i_pAE`) are modelled as integers: the scripts use
the metrics only through order comparisons, and the order on the float
values that actually occur (no NaN) embeds into any linear order.
-/

/-- Filenames / identifier strings, modelled as lists of characters. -/
abbrev FName := List Char

/-- Keys of Python dictionaries used by the scripts are strings; a dictionary
is an association list in insertion order. -/
def alookup {β : Type} (m : List (FName × β)) (k : FName) : Option β :=
  match m with
  | [] => none
  | (k', v) :: rest => if k' = k then some v else alookup rest k

/-- Insert with dict semantics: overwriting an existing key keeps its original
insertion position, a fresh key is appended at the end. -/
def dinsert {β : Type} (m : List (FName × β)) (k : FName) (v : β) : List (FName × β) :=
  match m with
  | [] => [(k, v)]
  | (k', v') :: rest => if k' = k then (k, v) :: rest else (k', v') :: dinsert rest k v

/-- Python `needle in hay` on strings: contiguous-substring test. -/
def isSubstr (needle hay : FName) : Bool :=
  match hay with
  | [] => needle.isEmpty
  | _ :: t => needle.isPrefixOf hay || isSubstr needle t

/-! ### Identifier Extractor of `6.ranking_batch1.2.py`

`extract_identifier(filename)`: `re.search(r'(s\d+_mpnn\d+)', filename)`,
returning the matched text or `None`. -/

/-- Attempt of the pattern `s\d+_mpnn\d+` at the current position: the
character `s`, a maximal nonempty digit run, the literal `_mpnn`, a maximal
nonempty digit run.  The greedy `\d+` runs are forced: shortening the first
run leaves a digit where `_` is required, and the second run ends the
pattern, so the backtracking regex engine and this deterministic reading
agree. -/
def matchSMpnn : FName → Option FName
  | [] => none
  | c :: rest =>
    if c = 's' then
      let d1 := rest.takeWhile Char.isDigit
      let r1 := rest.dropWhile Char.isDigit
      let d2 := (r1.drop 5).takeWhile Char.isDigit
      if d1 ≠ [] ∧ ['_', 'm', 'p', 'n', 'n'].isPrefixOf r1 ∧ d2 ≠ [] then
        some ('s' :: (d1 ++ ['_', 'm', 'p', 'n', 'n'] ++ d2))
      else none
    else none

/-- `re.search` scans candidate start positions left to right and returns the
first position where the pattern matches. -/
def searchSMpnn : FName → Option FName
  | [] => none
  | c :: cs =>
    match matchSMpnn (c :: cs) with
    | some m => some m
    | none => searchSMpnn cs

/-- `extract_identifier` in `6.ranking_batch1.2.py` (lines 23-26). -/
def extract_identifier (filename : FName) : Option FName :=
  searchSMpnn filename

/-! ### Core-identifier extractor of `9_exluding_doublets.py`

`extract_core_identifier_with_ag1_fallback(filename, master_rankings)`
(lines 16-32). -/

/-- Prefix of the list before its last `.` character, `none` when no `.`
occurs. -/
def lastDotPre : FName → Option FName
  | [] => none
  | c :: cs =>
    match lastDotPre cs with
    | some p => some (c :: p)
    | none => if c = '.' then some [] else none

/-- Base part of `os.path.splitext` on a path without directory separators:
split at the last dot, except that a run of leading dots never starts an
extension (CPython skips leading dots of the basename). -/
def splitExtBase (s : FName) : FName :=
  let ld := s.takeWhile (fun c => c == '.')
  let rest := s.dropWhile (fun c => c == '.')
  match lastDotPre rest with
  | some p => ld ++ p
  | none => s

/-- `re.sub(r'^\d+_\d+_', '', base_name)`: the anchored pattern fires at most
once; the greedy digit runs are forced as in `matchSMpnn`. -/
def stripRankPre (s : FName) : FName :=
  let d1 := s.takeWhile Char.isDigit
  let r1 := s.dropWhile Char.isDigit
  match r1 with
  | '_' :: r2 =>
    let d2 := r2.takeWhile Char.isDigit
    let r3 := r2.dropWhile Char.isDigit
    match r3 with
    | '_' :: r4 => if d1 ≠ [] ∧ d2 ≠ [] then r4 else s
    | _ => s
  | _ => s

/-- Truncate the list at the leftmost position whose suffix satisfies `p`;
the common shape of `re.sub(r'PAT.*$', '', s)` for newline-free `s`. -/
def truncAt (p : FName → Bool) : FName → FName
  | [] => []
  | c :: cs => if p (c :: cs) then [] else c :: truncAt p cs

/-- Position test for `_model\d+`. -/
def modelAt (l : FName) : Bool :=
  ['_', 'm', 'o', 'd', 'e', 'l'].isPrefixOf l &&
    (match l.drop 6 with
     | c :: _ => c.isDigit
     | [] => false)

/-- Position test for `_aligned`. -/
def alignedAt (l : FName) : Bool :=
  ['_', 'a', 'l', 'i', 'g', 'n', 'e', 'd'].isPrefixOf l

/-- `re.sub(r'_model\d+.*$', '', s)`. -/
def stripModelSuffix (s : FName) : FName := truncAt modelAt s

/-- `re.sub(r'_aligned.*$', '', s)`. -/
def stripAlignedSuffix (s : FName) : FName := truncAt alignedAt s

/-- The pure stripping chain of `extract_core_identifier_with_ag1_fallback`
(lines 18-21 of `9_exluding_doublets.py`), before any rankings lookup. -/
def coreStrip (filename : FName) : FName :=
  stripAlignedSuffix (stripModelSuffix (stripRankPre (splitExtBase filename)))

/-- `base_name.replace('_ag1_', '_7_')`: replace every non-overlapping
occurrence, scanning left to right. -/
def replaceAg1 : FName → FName
  | '_' :: 'a' :: 'g' :: '1' :: '_' :: rest => '_' :: '7' :: '_' :: replaceAg1 rest
  | c :: cs => c :: replaceAg1 cs
  | [] => []

/-- Global rank map: design identifier to 1-based rank. -/
abbrev Rankings := List (FName × Nat)

/-- `extract_core_identifier_with_ag1_fallback(filename, master_rankings)`:
strip extension, rank tags and variant suffixes; return the result if it is
a rankings key, otherwise retry with the `_ag1_` to `_7_` substitution, and
fall back to the stripped name. -/
def extract_core_identifier_with_ag1_fallback (rk : Rankings) (filename : FName) : FName :=
  let base := coreStrip filename
  if (alookup rk base).isSome then base
  else if isSubstr ['_', 'a', 'g', '1', '_'] base then
    let alt := replaceAg1 base
    if (alookup rk alt).isSome then alt else base
  else base

/-! ### Score Aggregator sort
(`4.merge_and_sort...py`, lines 105-118 and 132-145.)

A `ScoreRecord` is one row of a score table that carries both metric
columns, plus the provenance columns the aggregator adds. -/

structure ScoreRecord where
  design : FName
  sourceSubfolder : FName
  sourceFile : FName
  iPTM : Int
  iPAE : Int
deriving DecidableEq

/-- The strict two-key order of
`sort_values(["Average_i_pTM", "Average_i_pAE"], ascending=[False, True])`:
`a` sorts strictly before `b`. -/
def keyLT (a b : ScoreRecord) : Prop :=
  b.iPTM < a.iPTM ∨ (a.iPTM = b.iPTM ∧ a.iPAE < b.iPAE)

instance (a b : ScoreRecord) : Decidable (keyLT a b) := by
  unfold keyLT; infer_instance

/-- Insertion step of a stable sort with strict order `lt`: the new element
`x` goes after exactly the elements strictly smaller than it, hence before
every element tied with it. -/
def stInsert {α : Type} (lt : α → α → Prop) [DecidableRel lt] (x : α) : List α → List α
  | [] => [x]
  | y :: ys => if lt y x then y :: stInsert lt x ys else x :: y :: ys

/-- Stable sort by the strict order `lt`: in `stSort lt (x :: xs)`, `x`
precedes every element of `xs` in the input, and `stInsert` puts it before
all of its ties, so ties keep input order.  A stable sort of a sequence of
distinctly tagged rows is unique, so this models the stable
`numpy.lexsort`-based multi-column `sort_values` (and Python's stable
`list.sort`) irrespective of the concrete algorithm. -/
def stSort {α : Type} (lt : α → α → Prop) [DecidableRel lt] : List α → List α
  | [] => []
  | x :: xs => stInsert lt x (stSort lt xs)

/-- Rows tagged with their 0-based position in the input concatenation. -/
abbrev TaggedRow := Nat × ScoreRecord

/-- Tag rows with consecutive positions starting at `i`. -/
def idxTagFrom (i : Nat) : List ScoreRecord → List TaggedRow
  | [] => []
  | r :: rs => (i, r) :: idxTagFrom (i + 1) rs

/-- Strict key order lifted to tagged rows (the tag is ignored, as
`sort_values` sorts on the metric columns only). -/
def taggedLT (a b : TaggedRow) : Prop := keyLT a.2 b.2

instance (a b : TaggedRow) : Decidable (taggedLT a b) := by
  unfold taggedLT; infer_instance

/-- The Score Aggregator's sort of a concatenated row list (used identically
for each per-subfolder table and for the master table): tag rows with their
input position, stably sort by the two-key order.  The rank of a row is its
1-based position in the result. -/
def aggSort (rows : List ScoreRecord) : List TaggedRow :=
  stSort taggedLT (idxTagFrom 0 rows)

/-- Total order used to state sortedness of `aggSort`: strict two-key order,
with full metric ties ordered by input position. -/
def rowLT (a b : TaggedRow) : Prop :=
  keyLT a.2 b.2 ∨ (a.2.iPTM = b.2.iPTM ∧ a.2.iPAE = b.2.iPAE ∧ a.1 < b.1)

/-! ### Rank assignment
(`6.ranking_batch1.2.py` lines 39-44 and 67-82.) -/

/-- `df['master_rank'] = range(1, len(df) + 1)` and
`df['individual_rank'] = range(1, len(df) + 1)`: attach the 1-based rank
column to a table positionally. -/
def withRank {α : Type} (df : List α) : List (α × Nat) :=
  df.zip (List.range' 1 df.length)

/-- The rank column of a table. -/
def rankColumn {α : Type} (df : List α) : List Nat :=
  (withRank df).map Prod.snd

/-! ### Rank-map construction with duplicate identifiers
(`6.ranking_batch1.2.py` lines 48-53; `9_exluding_doublets.py` lines 51-58.)

Both scripts walk the ranked table top to bottom and do
`rankings[identifier] = rank`; a later row overwrites an earlier entry for
the same identifier.  `normalize` is the per-script cell normalization
(`extract_identifier` in script 6; `strip` plus `splitext` in script 9);
a `none` cell models a NaN `Design` cell skipped by `pd.notna`. -/

def rankingsStep (normalize : FName → Option FName) (m : Rankings) (i : Nat)
    (c : Option FName) : Rankings :=
  match c with
  | none => m
  | some d =>
    match normalize d with
    | none => m
    | some k => dinsert m k (i + 1)

/-- Walk of the ranked table: the row at offset `i` carries rank `i + 1`. -/
def buildRankingsFrom (normalize : FName → Option FName) :
    Nat → List (Option FName) → Rankings → Rankings
  | _, [], m => m
  | i, c :: cs, m => buildRankingsFrom normalize (i + 1) cs (rankingsStep normalize m i c)

/-- Rank map built from the `Design` column of a ranked table whose row at
0-based position `i` has rank `i + 1`. -/
def build_rankings (normalize : FName → Option FName) (cells : List (Option FName)) : Rankings :=
  buildRankingsFrom normalize 0 cells []

/-- Normalized identifier of the `Design` cell at a row, as used when the
rank map is built. -/
def cellKey (normalize : FName → Option FName) (c : Option FName) : Option FName :=
  c.bind normalize

/-! ### Rank Join & Tagging
(`copy_files_with_rankings`, `6.ranking_batch1.2.py` lines 170-220.) -/

/-- Decimal digits of a rank, as interpolated into the new filename. -/
def natChars (n : Nat) : FName := (toString n).toList

/-- `f"{individual_rank}_{master_rank}_{pdb_filename}"`. -/
def podiumName (ir mr : Nat) (filename : FName) : FName :=
  natChars ir ++ '_' :: (natChars mr ++ '_' :: filename)

/-- Outcome of processing one discovered PDB file. -/
inductive JoinResult where
  | copied (dest : FName)
  | skippedNoMother
  | skippedNoIdentifier
  | skippedNoRank (individual master : Option Nat)
deriving DecidableEq

/-- Per-file body of the loop in `copy_files_with_rankings`: skip when the
mother folder cannot be determined, skip when no identifier can be
extracted, look the identifier up in the mother folder's individual rank map
and in the master rank map, skip (reporting both lookup outcomes) unless
both succeed, else copy under the double-rank-tagged name. -/
def process_pdb (individual : List (FName × Rankings)) (master : Rankings)
    (motherFolder : Option FName) (pdbFilename : FName) : JoinResult :=
  match motherFolder with
  | none => .skippedNoMother
  | some mf =>
    match extract_identifier pdbFilename with
    | none => .skippedNoIdentifier
    | some ident =>
      let individualRank : Option Nat :=
        match alookup individual mf with
        | some sub => alookup sub ident
        | none => none
      let masterRank : Option Nat := alookup master ident
      match individualRank, masterRank with
      | some ir, some mr => .copied (podiumName ir mr pdbFilename)
      | _, _ => .skippedNoRank individualRank masterRank

/-- The per-subfolder rank lookup for a discovered file: it succeeds when the
identifier extracts, the mother folder has an individual rank map, and the
identifier is a key of it. -/
def individualLookup (individual : List (FName × Rankings))
    (motherFolder : Option FName) (pdbFilename : FName) : Option Nat :=
  match motherFolder, extract_identifier pdbFilename with
  | some mf, some ident => (alookup individual mf).bind (fun sub => alookup sub ident)
  | _, _ => none

/-- The global rank lookup for a discovered file. -/
def masterLookup (master : Rankings) (pdbFilename : FName) : Option Nat :=
  (extract_identifier pdbFilename).bind (fun ident => alookup master ident)

/-! ### Duplicate Resolution
(`9_exluding_doublets.py`.) -/

/-- Attempt of the pattern `_s(\d+)_` at the current position; the captured
group is the digit run. -/
def matchSNum : FName → Option FName
  | '_' :: 's' :: rest =>
    let d := rest.takeWhile Char.isDigit
    let r := rest.dropWhile Char.isDigit
    if d ≠ [] ∧ r.head? = some '_' then some d else none
  | _ => none

/-- Scan of `re.search(r'_s(\d+)_', filename)` position by position. -/
def searchSNum : FName → Option FName
  | [] => none
  | c :: cs =>
    match matchSNum (c :: cs) with
    | some m => some m
    | none => searchSNum cs

/-- `extract_s_number` in `9_exluding_doublets.py` (lines 11-14): the
grouping token. -/
def extract_s_number (filename : FName) : Option FName :=
  searchSNum filename

/-- Fuzzy fallback of `find_best_and_worst_ranked_files` (lines 70-74): scan
the rank map in insertion order for the first key related to the core
identifier by substring containment in either direction. -/
def fuzzyScan (rk : Rankings) (core : FName) : Option Nat :=
  match rk with
  | [] => none
  | (k, v) :: rest =>
    if isSubstr k core || isSubstr core k then some v else fuzzyScan rest core

/-- Rank resolution of one group member (lines 64-74): exact lookup of the
core identifier, then the fuzzy scan. -/
def resolve_rank (rk : Rankings) (filename : FName) : Option Nat :=
  let core := extract_core_identifier_with_ag1_fallback rk filename
  match alookup rk core with
  | some r => some r
  | none => fuzzyScan rk core

/-- The `file_rankings` list (lines 62-79): the resolved members of a group,
in member order, each as (file, rank, core identifier); unresolved members
are reported and dropped. -/
def file_rankings (rk : Rankings) (files : List FName) : List (FName × Nat × FName) :=
  files.filterMap (fun f =>
    (resolve_rank rk f).map
      (fun r => (f, r, extract_core_identifier_with_ag1_fallback rk f)))

/-- Strict rank order for `file_rankings.sort(key=lambda x: x[1])`. -/
def rankLT (a b : FName × Nat × FName) : Prop := a.2.1 < b.2.1

instance (a b : FName × Nat × FName) : Decidable (rankLT a b) := by
  unfold rankLT; infer_instance

/-- `find_best_and_worst_ranked_files` (lines 60-88): stably sort the
resolved members by rank; the head is the best member, the tail the worst
members.  `none` models the `(None, None, [])` return. -/
def find_best_and_worst (rk : Rankings) (files : List FName) :
    Option ((FName × Nat × FName) × List (FName × Nat × FName)) :=
  match stSort rankLT (file_rankings rk files) with
  | [] => none
  | b :: ws => some (b, ws)

/-- Destination directory of a duplicate-resolution copy. -/
inductive DupDest where
  | unique
  | notUnique
deriving DecidableEq

/-- Keys of the `s_number_groups` dictionary in first-occurrence order. -/
def dedupFirst : List FName → List FName
  | [] => []
  | k :: ks => k :: (dedupFirst ks).filter (fun k' => !(k' == k))

/-- Grouping-token keys of a file list (lines 117-124): tokens of the files
that have one, in first-occurrence order. -/
def sKeys (files : List FName) : List FName :=
  dedupFirst (files.filterMap extract_s_number)

/-- Members of the duplicate group of token `k`, in file order. -/
def sGroup (files : List FName) (k : FName) : List FName :=
  files.filter (fun f => extract_s_number f == some k)

/-- Copy actions for one duplicate group (lines 129-157): a singleton group
goes to `unique`; a larger group sends the best resolved member to `unique`
and the remaining resolved members to `not_unique_basefold`; a larger group
with no resolved member produces no copies. -/
def group_actions (rk : Rankings) : List FName → List (DupDest × FName)
  | [f] => [(.unique, f)]
  | g =>
    match find_best_and_worst rk g with
    | none => []
    | some (b, ws) => (.unique, b.1) :: ws.map (fun w => (.notUnique, w.1))

/-- All copy actions of one pooled directory, group by group. -/
def dup_actions (rk : Rankings) (files : List FName) : List (DupDest × FName) :=
  ((sKeys files).map (fun k => group_actions rk (sGroup files k))).flatten

/-! ### Rerun idempotence
(`clear_podium_directories`, `6.ranking_batch1.2.py` lines 115-137;
skip-on-existing copies, `9_exluding_doublets.py` lines 132-157.)

The filesystem state of an output directory family is a finite map from a
destination key to file content.  Rank Join keys podium files by (aligned
directory, tagged filename); Duplicate Resolution keys output files by
(destination directory, filename).  Copying reads the source file's content,
which is part of the unchanged inputs. -/

/-- One discovered PDB file of `find_corresponding_pdb_files`, with the
aligned directory it sits in, the mother-folder key derived from its path,
its basename, and its content. -/
structure PdbInput where
  dir : FName
  motherFolder : Option FName
  name : FName
  content : FName
deriving DecidableEq

/-- State of the podium output directories. -/
abbrev PodiumFs := (FName × FName) → Option FName

/-- `clear_podium_directories`: every file in every podium directory is
removed before any copy of the run. -/
def clear_podium (_s : PodiumFs) : PodiumFs := fun _ => none

/-- The copies performed by one Rank Join run, in file order; `shutil.copy2`
overwrites an existing destination. -/
def rank_join_outputs (individual : List (FName × Rankings)) (master : Rankings)
    (pdbs : List PdbInput) : List ((FName × FName) × FName) :=
  pdbs.filterMap (fun p =>
    match process_pdb individual master p.motherFolder p.name with
    | .copied dest => some ((p.dir, dest), p.content)
    | _ => none)

/-- One Rank Join run over the podium state: clear, then copy (overwriting). -/
def run_rank_join (individual : List (FName × Rankings)) (master : Rankings)
    (pdbs : List PdbInput) (s : PodiumFs) : PodiumFs :=
  (rank_join_outputs individual master pdbs).foldl
    (fun st kv => fun k => if k = kv.1 then some kv.2 else st k)
    (clear_podium s)

/-- State of the `unique` / `not_unique_basefold` output directories. -/
abbrev DupFs := (DupDest × FName) → Option FName

/-- One copy action applied to the output state: the copy is skipped when
its destination already exists (`if not os.path.exists`), otherwise it
writes the source file's content. -/
def dupStep (content : FName → FName) (st : DupFs) (a : DupDest × FName) : DupFs :=
  match st a with
  | some _ => st
  | none => fun k => if k = a then some (content a.2) else st k

/-- One Duplicate Resolution run over the output state. -/
def run_dup_resolution (rk : Rankings) (files : List FName) (content : FName → FName)
    (s : DupFs) : DupFs :=
  (dup_actions rk files).foldl (dupStep content) s

/-! ### Score Aggregator read loop
(`4.merge_and_sort...py` lines 88-99.)

Each CSV file of a subfolder either parses to a table or raises a read
error (`except Exception`); a parsed table is tagged with its subfolder and
file of origin and appended both to the subfolder's list and to the master
list.  There is no test on the parsed table's columns. -/

/-- A parsed score table: its column names and its rows. -/
structure Table where
  cols : List FName
  rows : List (List FName)
deriving DecidableEq

/-- Rows of one parsed table, tagged with `source_subfolder` and
`source_file`. -/
def tag_rows (subdir file : FName) (t : Table) : List (FName × FName × List FName) :=
  t.rows.map (fun r => (subdir, file, r))

/-- Rows contributed by one subfolder: each file either parses
(`some table`) or fails to read (`none`, warned and skipped); files appear
in sorted order. -/
def subdir_rows (subdir : FName) (files : List (FName × Option Table)) :
    List (FName × FName × List FName) :=
  (files.map (fun nf =>
    match nf.2 with
    | some t => tag_rows subdir nf.1 t
    | none => [])).flatten

/-- Rows of the master concatenation `all_dfs`, across subfolders. -/
def master_rows (inputs : List (FName × List (FName × Option Table))) :
    List (FName × FName × List FName) :=
  (inputs.map (fun s => subdir_rows s.1 s.2)).flatten

/-! ### Exit behavior of the stages
(`6.ranking_batch1.2.py` lines 33-37 and 140-144; `9_exluding_doublets.py`
lines 36-41; `4.merge_and_sort...py` line 72.)

The booleans are the branch conditions the scripts test, in order.  Every
branch of every script ends in a plain `return` (or in script 4's case a
bare `exit()`, which is `sys.exit(None)`), after which the interpreter
terminates the process with status 0; no script ever passes a nonzero
status. -/

/-- Exit status of the Rank Join stage as a function of its branch
conditions: missing master file (lines 35-37), missing `Design` column
(lines 44-46), empty rankings (lines 142-144), no PDB files found
(lines 159-161), and the completed run. -/
def rank_join_exit (masterExists designColPresent rankingsNonempty pdbsFound : Bool) : Nat :=
  if !masterExists then 0
  else if !designColPresent then 0
  else if !rankingsNonempty then 0
  else if !pdbsFound then 0
  else 0

/-- Exit status of the Duplicate Resolution stage: missing master file
(lines 39-41), missing `Design` column (lines 47-49), empty rankings
(lines 96-98), and the completed run. -/
def dup_resolution_exit (masterExists designColPresent rankingsNonempty : Bool) : Nat :=
  if !masterExists then 0
  else if !designColPresent then 0
  else if !rankingsNonempty then 0
  else 0

/-- Exit status of the Score Aggregator: `exit()` when no CSV files are
found (line 72, status 0), normal completion otherwise. -/
def score_aggregator_exit (anyCsvFound : Bool) : Nat :=
  if !anyCsvFound then 0
  else 0

/-! ## Helper lemmas -/

theorem takeWhile_eq_self_of {α : Type} {p : α → Bool} {l : List α}
    (h : ∀ a ∈ l, p a = true) : l.takeWhile p = l := by
  induction l with
  | nil => rfl
  | cons a t ih =>
    rw [List.takeWhile_cons, if_pos (h a (List.mem_cons_self a t))]
    rw [ih (fun b hb => h b (List.mem_cons_of_mem a hb))]

theorem takeWhile_append_cons {α : Type} {p : α → Bool} {l : List α}
    (hl : ∀ a ∈ l, p a = true) {x : α} (hx : p x = false) (r : List α) :
    (l ++ x :: r).takeWhile p = l ∧ (l ++ x :: r).dropWhile p = x :: r := by
  induction l with
  | nil => simp [List.takeWhile_cons, List.dropWhile_cons, hx]
  | cons a t ih =>
    have ha : p a = true := hl a (List.mem_cons_self a t)
    have ht := ih (fun b hb => hl b (List.mem_cons_of_mem a hb))
    simp only [List.cons_append, List.takeWhile_cons, List.dropWhile_cons, ha,
      if_true, ht.1, ht.2]
    simp

theorem mem_stInsert {α : Type} {lt : α → α → Prop} [DecidableRel lt] {x z : α} {l : List α} :
    z ∈ stInsert lt x l ↔ z = x ∨ z ∈ l := by
  induction l with
  | nil => simp [stInsert]
  | cons y ys ih =>
    by_cases h : lt y x
    · simp only [stInsert, if_pos h, List.mem_cons, ih]
      tauto
    · simp only [stInsert, if_neg h, List.mem_cons]

theorem stInsert_perm {α : Type} {lt : α → α → Prop} [DecidableRel lt] (x : α) (l : List α) :
    (stInsert lt x l).Perm (x :: l) := by
  induction l with
  | nil => simp [stInsert]
  | cons y ys ih =>
    by_cases h : lt y x
    · rw [stInsert, if_pos h]
      exact (ih.cons y).trans (List.Perm.swap x y ys)
    · rw [stInsert, if_neg h]

theorem stSort_perm {α : Type} {lt : α → α → Prop} [DecidableRel lt] (l : List α) :
    (stSort lt l).Perm l := by
  induction l with
  | nil => simp [stSort]
  | cons x xs ih => exact (stInsert_perm x (stSort lt xs)).trans (ih.cons x)

theorem stInsert_pairwise {α : Type} {lt : α → α → Prop} [DecidableRel lt] {R : α → α → Prop}
    (hTrans : ∀ a b c, R a b → R b c → R a c)
    {x : α} {l : List α} (hl : l.Pairwise R)
    (h1 : ∀ y ∈ l, lt y x → R y x) (h2 : ∀ y ∈ l, ¬ lt y x → R x y) :
    (stInsert lt x l).Pairwise R := by
  induction l with
  | nil => simp [stInsert]
  | cons y ys ih =>
    rw [List.pairwise_cons] at hl
    by_cases h : lt y x
    · rw [stInsert, if_pos h, List.pairwise_cons]
      constructor
      · intro z hz
        rcases mem_stInsert.mp hz with rfl | hz'
        · exact h1 y (List.mem_cons_self y ys) h
        · exact hl.1 z hz'
      · exact ih hl.2 (fun b hb => h1 b (List.mem_cons_of_mem y hb))
          (fun b hb => h2 b (List.mem_cons_of_mem y hb))
    · rw [stInsert, if_neg h, List.pairwise_cons]
      have hxy : R x y := h2 y (List.mem_cons_self y ys) h
      constructor
      · intro z hz
        rcases List.mem_cons.mp hz with rfl | hz'
        · exact hxy
        · exact hTrans x y z hxy (hl.1 z hz')
      · exact List.pairwise_cons.mpr hl

theorem stSort_pairwise {α : Type} {lt : α → α → Prop} [DecidableRel lt] {R : α → α → Prop}
    (hTrans : ∀ a b c, R a b → R b c → R a c)
    {l : List α}
    (hS : l.Pairwise (fun a b => (lt b a → R b a) ∧ (¬ lt b a → R a b))) :
    (stSort lt l).Pairwise R := by
  induction l with
  | nil => simp [stSort]
  | cons x xs ih =>
    rw [List.pairwise_cons] at hS
    have hmem : ∀ y ∈ stSort lt xs, y ∈ xs := fun y hy => ((stSort_perm xs).mem_iff).mp hy
    exact stInsert_pairwise hTrans (ih hS.2)
      (fun y hy hlt => (hS.1 y (hmem y hy)).1 hlt)
      (fun y hy hnlt => (hS.1 y (hmem y hy)).2 hnlt)

theorem mem_idxTagFrom_le {i : Nat} {rows : List ScoreRecord} :
    ∀ y ∈ idxTagFrom i rows, i ≤ y.1 := by
  induction rows generalizing i with
  | nil => simp [idxTagFrom]
  | cons r rs ih =>
    intro y hy
    rw [idxTagFrom, List.mem_cons] at hy
    rcases hy with rfl | hy'
    · exact Nat.le_refl i
    · exact Nat.le_of_succ_le (ih y hy')

theorem idxTagFrom_pairwise {i : Nat} {rows : List ScoreRecord} :
    (idxTagFrom i rows).Pairwise (fun a b => a.1 < b.1) := by
  induction rows generalizing i with
  | nil => simp [idxTagFrom]
  | cons r rs ih =>
    rw [idxTagFrom, List.pairwise_cons]
    exact ⟨fun y hy => Nat.lt_of_succ_le (mem_idxTagFrom_le y hy), ih⟩

theorem rowLT_trans : ∀ a b c : TaggedRow, rowLT a b → rowLT b c → rowLT a c := by
  intro a b c hab hbc
  unfold rowLT keyLT at hab hbc ⊢
  omega

theorem taggedLT_resolve (a b : TaggedRow) (htag : a.1 < b.1) :
    (taggedLT b a → rowLT b a) ∧ (¬ taggedLT b a → rowLT a b) := by
  unfold taggedLT rowLT keyLT
  omega

theorem aggSort_pairwise (rows : List ScoreRecord) : (aggSort rows).Pairwise rowLT := by
  unfold aggSort
  refine stSort_pairwise rowLT_trans ?_
  exact idxTagFrom_pairwise.imp (fun {a b} hab => taggedLT_resolve a b hab)

/-! ## C1 -/

/-- C1: in every RankTable produced by the Score Aggregator's stable two-key
sort (both the global table and every per-subfolder table are produced by
`aggSort` applied to the respective input concatenation; the rank of a row
is its 1-based position in the result, so `rank(i) < rank(j)` is `i < j`):
a strictly larger primary metric sorts strictly earlier; on a primary tie a
strictly smaller secondary metric sorts strictly earlier; and fully tied
rows keep their relative order from the input concatenation, witnessed by
their strictly increasing input positions. -/
theorem C1_ranktable_sorted_stable (rows : List ScoreRecord) (i j : Nat)
    (hi : i < (aggSort rows).length) (hj : j < (aggSort rows).length) :
    (((aggSort rows).get ⟨i, hi⟩).2.iPTM > ((aggSort rows).get ⟨j, hj⟩).2.iPTM → i < j) ∧
    ((((aggSort rows).get ⟨i, hi⟩).2.iPTM = ((aggSort rows).get ⟨j, hj⟩).2.iPTM ∧
        ((aggSort rows).get ⟨i, hi⟩).2.iPAE < ((aggSort rows).get ⟨j, hj⟩).2.iPAE) → i < j) ∧
    ((((aggSort rows).get ⟨i, hi⟩).2.iPTM = ((aggSort rows).get ⟨j, hj⟩).2.iPTM ∧
        ((aggSort rows).get ⟨i, hi⟩).2.iPAE = ((aggSort rows).get ⟨j, hj⟩).2.iPAE ∧ i < j) →
      ((aggSort rows).get ⟨i, hi⟩).1 < ((aggSort rows).get ⟨j, hj⟩).1) := by
  have hp := List.pairwise_iff_getElem.mp (aggSort_pairwise rows)
  simp only [List.get_eq_getElem]
  refine ⟨?_, ?_, ?_⟩
  · intro hgt
    rcases Nat.lt_trichotomy i j with h | h | h
    · exact h
    · subst h; exact absurd hgt (lt_irrefl _)
    · have := hp j i hj hi h
      unfold rowLT keyLT at this
      omega
  · intro hlt
    rcases Nat.lt_trichotomy i j with h | h | h
    · exact h
    · subst h; omega
    · have := hp j i hj hi h
      unfold rowLT keyLT at this
      omega
  · intro htie
    have := hp i j hi hj htie.2.2
    unfold rowLT keyLT at this
    omega

/-- Witness for C1 at a concrete fully tied two-row table: stability keeps
the input order, so the input positions at output positions 0 and 1 are
increasing. -/
theorem C1_ranktable_sorted_stable_witness :
    ((aggSort [⟨[], [], [], (7 : Int), (3 : Int)⟩, ⟨[], [], [], (7 : Int), (3 : Int)⟩]).get
        ⟨0, by decide⟩).1 <
      ((aggSort [⟨[], [], [], (7 : Int), (3 : Int)⟩, ⟨[], [], [], (7 : Int), (3 : Int)⟩]).get
        ⟨1, by decide⟩).1 :=
  (C1_ranktable_sorted_stable
    [⟨[], [], [], (7 : Int), (3 : Int)⟩, ⟨[], [], [], (7 : Int), (3 : Int)⟩]
    0 1 (by decide) (by decide)).2.2 (by decide)

/-! ## C2 -/

/-- C2: the rank column attached positionally to a table of `N` rows (as
`range(1, len(df) + 1)` does for the master table and for every
per-subfolder table) has no duplicates and contains exactly the values
`1 .. N`: a dense permutation with no gaps. -/
theorem C2_ranks_dense_permutation {α : Type} (df : List α) :
    (rankColumn df).Nodup ∧ ∀ r : Nat, r ∈ rankColumn df ↔ (1 ≤ r ∧ r ≤ df.length) := by
  have hcol : rankColumn df = List.range' 1 df.length := by
    unfold rankColumn withRank
    exact List.map_snd_zip _ _ (le_of_eq (List.length_range' _ _ _))
  constructor
  · rw [hcol]; exact List.nodup_range' _ _
  · intro r
    rw [hcol, List.mem_range']
    constructor
    · rintro ⟨k, hk, rfl⟩; omega
    · intro h; exact ⟨r - 1, by omega, by omega⟩

/-- Witness for C2 at a concrete three-row table. -/
theorem C2_ranks_dense_permutation_witness :
    (rankColumn ([10, 20, 30] : List Nat)).Nodup ∧
      (2 ∈ rankColumn ([10, 20, 30] : List Nat) ↔
        (1 ≤ 2 ∧ 2 ≤ ([10, 20, 30] : List Nat).length)) :=
  ⟨(C2_ranks_dense_permutation [10, 20, 30]).1,
   (C2_ranks_dense_permutation [10, 20, 30]).2 2⟩

/-! ## C3 lemmas -/

theorem matchSMpnn_shape {s m : FName} (h : matchSMpnn s = some m) :
    ∃ d1 d2 : FName, d1 ≠ [] ∧ d2 ≠ [] ∧ (∀ a ∈ d1, a.isDigit = true) ∧
      (∀ a ∈ d2, a.isDigit = true) ∧ m = 's' :: (d1 ++ ['_', 'm', 'p', 'n', 'n'] ++ d2) := by
  cases s with
  | nil => simp [matchSMpnn] at h
  | cons c rest =>
    rw [matchSMpnn] at h
    by_cases hc : c = 's'
    · rw [if_pos hc] at h
      by_cases hcond : rest.takeWhile Char.isDigit ≠ [] ∧
          ['_', 'm', 'p', 'n', 'n'].isPrefixOf (rest.dropWhile Char.isDigit) = true ∧
          ((rest.dropWhile Char.isDigit).drop 5).takeWhile Char.isDigit ≠ []
      · rw [if_pos hcond] at h
        injection h with h'
        refine ⟨rest.takeWhile Char.isDigit,
          ((rest.dropWhile Char.isDigit).drop 5).takeWhile Char.isDigit,
          hcond.1, hcond.2.2, ?_, ?_, h'.symm⟩
        · exact fun a ha => List.mem_takeWhile_imp ha
        · exact fun a ha => List.mem_takeWhile_imp ha
      · rw [if_neg hcond] at h
        exact absurd h (by simp)
    · rw [if_neg hc] at h
      exact absurd h (by simp)

theorem matchSMpnn_fixed {d1 d2 : FName} (h1 : d1 ≠ []) (h2 : d2 ≠ [])
    (hd1 : ∀ a ∈ d1, a.isDigit = true) (hd2 : ∀ a ∈ d2, a.isDigit = true) :
    matchSMpnn ('s' :: (d1 ++ ['_', 'm', 'p', 'n', 'n'] ++ d2)) =
      some ('s' :: (d1 ++ ['_', 'm', 'p', 'n', 'n'] ++ d2)) := by
  have hre : d1 ++ ['_', 'm', 'p', 'n', 'n'] ++ d2 =
      d1 ++ '_' :: (['m', 'p', 'n', 'n'] ++ d2) := by simp
  have htw := takeWhile_append_cons (p := Char.isDigit) hd1
    (x := '_') (by decide) (['m', 'p', 'n', 'n'] ++ d2)
  have htake : (d1 ++ ['_', 'm', 'p', 'n', 'n'] ++ d2).takeWhile Char.isDigit = d1 := by
    rw [hre]; exact htw.1
  have hdrop : (d1 ++ ['_', 'm', 'p', 'n', 'n'] ++ d2).dropWhile Char.isDigit =
      ['_', 'm', 'p', 'n', 'n'] ++ d2 := by
    rw [hre, htw.2]; simp
  have hpre : (['_', 'm', 'p', 'n', 'n'] : FName).isPrefixOf
      (['_', 'm', 'p', 'n', 'n'] ++ d2) = true :=
    List.isPrefixOf_iff_prefix.mpr (List.prefix_append _ _)
  have hdroplen : ((['_', 'm', 'p', 'n', 'n'] : FName) ++ d2).drop 5 = d2 := by
    simp
  have htake2 : d2.takeWhile Char.isDigit = d2 := takeWhile_eq_self_of hd2
  rw [matchSMpnn, if_pos rfl]
  simp only [htake, hdrop, hdroplen, htake2]
  rw [if_pos ⟨h1, hpre, h2⟩]

theorem searchSMpnn_self {s m : FName} (h : searchSMpnn s = some m) :
    searchSMpnn m = some m := by
  induction s with
  | nil => simp [searchSMpnn] at h
  | cons c cs ih =>
    rw [searchSMpnn] at h
    cases hm : matchSMpnn (c :: cs) with
    | some m' =>
      rw [hm] at h
      injection h with h'
      subst h'
      obtain ⟨d1, d2, h1, h2, hd1, hd2, rfl⟩ := matchSMpnn_shape hm
      rw [searchSMpnn, matchSMpnn_fixed h1 h2 hd1 hd2]
    | none =>
      rw [hm] at h
      exact ih h

/-! ## C3 -/

/-- C3 counterexample: the core-identifier extractor is not idempotent.  On
the filename `a.b.c` (with any rankings key set, here the empty one) the
first application strips only the last dot segment, giving `a.b`; the second
application strips again, giving `a`. -/
theorem C3_counterexample :
    extract_core_identifier_with_ag1_fallback []
        (extract_core_identifier_with_ag1_fallback [] ("a.b.c".toList)) ≠
      extract_core_identifier_with_ag1_fallback [] ("a.b.c".toList) := by
  decide

/-- C3 (amended): `extract_identifier` (the `s\d+_mpnn\d+` extractor of the
Rank Join stage) is idempotent on every filename: whenever it extracts an
identifier `m`, applying it to `m` returns `m` unchanged.  The
core-identifier extractor of Duplicate Resolution is idempotent exactly on
the filenames whose extracted identifier is a fixed point of its stripping
chain (extension split, rank-tag removal, model/aligned-suffix removal); in
general a second application can strip further (see the counterexample), so
the unconditional idempotence stated by the spec fails. -/
theorem C3_extract_idempotent_amended :
    (∀ name m : FName, extract_identifier name = some m → extract_identifier m = some m) ∧
    (∀ (rk : Rankings) (name : FName),
        coreStrip (extract_core_identifier_with_ag1_fallback rk name) =
          extract_core_identifier_with_ag1_fallback rk name →
        extract_core_identifier_with_ag1_fallback rk
            (extract_core_identifier_with_ag1_fallback rk name) =
          extract_core_identifier_with_ag1_fallback rk name) := by
  constructor
  · intro name m h
    exact searchSMpnn_self h
  · intro rk name hfix
    by_cases hb : (alookup rk (coreStrip name)).isSome = true
    · have hr : extract_core_identifier_with_ag1_fallback rk name = coreStrip name := by
        unfold extract_core_identifier_with_ag1_fallback
        rw [if_pos hb]
      rw [hr] at hfix ⊢
      unfold extract_core_identifier_with_ag1_fallback
      rw [hfix, if_pos hb]
    · by_cases hsub : isSubstr ['_', 'a', 'g', '1', '_'] (coreStrip name) = true
      · by_cases halt : (alookup rk (replaceAg1 (coreStrip name))).isSome = true
        · have hr : extract_core_identifier_with_ag1_fallback rk name =
              replaceAg1 (coreStrip name) := by
            unfold extract_core_identifier_with_ag1_fallback
            rw [if_neg hb, if_pos hsub, if_pos halt]
          rw [hr] at hfix ⊢
          unfold extract_core_identifier_with_ag1_fallback
          rw [hfix, if_pos halt]
        · have hr : extract_core_identifier_with_ag1_fallback rk name = coreStrip name := by
            unfold extract_core_identifier_with_ag1_fallback
            rw [if_neg hb, if_pos hsub, if_neg halt]
          rw [hr] at hfix ⊢
          unfold extract_core_identifier_with_ag1_fallback
          rw [hfix, if_neg hb, if_pos hsub, if_neg halt]
      · have hr : extract_core_identifier_with_ag1_fallback rk name = coreStrip name := by
          unfold extract_core_identifier_with_ag1_fallback
          rw [if_neg hb, if_neg hsub]
        rw [hr] at hfix ⊢
        unfold extract_core_identifier_with_ag1_fallback
        rw [hfix, if_neg hb, if_neg hsub]

/-- Witness for the amended C3 at concrete inputs. -/
theorem C3_extract_idempotent_amended_witness :
    extract_identifier ("s1_mpnn2".toList) = some ("s1_mpnn2".toList) ∧
    extract_core_identifier_with_ag1_fallback []
        (extract_core_identifier_with_ag1_fallback [] ("abc.pdb".toList)) =
      extract_core_identifier_with_ag1_fallback [] ("abc.pdb".toList) :=
  ⟨C3_extract_idempotent_amended.1 ("xs1_mpnn2".toList) ("s1_mpnn2".toList) (by decide),
   C3_extract_idempotent_amended.2 [] ("abc.pdb".toList) (by decide)⟩

/-! ## C9 lemmas -/

theorem alookup_dinsert_self {β : Type} (m : List (FName × β)) (k : FName) (v : β) :
    alookup (dinsert m k v) k = some v := by
  induction m with
  | nil => simp [dinsert, alookup]
  | cons kv rest ih =>
    obtain ⟨k', v'⟩ := kv
    by_cases h : k' = k
    · subst h; simp [dinsert, alookup]
    · simp only [dinsert, if_neg h, alookup]
      exact ih

theorem alookup_dinsert_ne {β : Type} (m : List (FName × β)) {ki k : FName}
    (h : ki ≠ k) (v : β) :
    alookup (dinsert m ki v) k = alookup m k := by
  induction m with
  | nil => simp [dinsert, alookup, h]
  | cons kv rest ih =>
    obtain ⟨k', v'⟩ := kv
    by_cases h2 : k' = ki
    · subst h2; simp [dinsert, alookup, h]
    · by_cases h3 : k' = k
      · subst h3; simp [dinsert, alookup, if_neg h2]
      · simp only [dinsert, if_neg h2, alookup, if_neg h3]
        exact ih

theorem alookup_rankingsStep_ne {normalize : FName → Option FName} {k : FName}
    {c : Option FName} (hc : cellKey normalize c ≠ some k) (m : Rankings) (i : Nat) :
    alookup (rankingsStep normalize m i c) k = alookup m k := by
  cases c with
  | none => rfl
  | some d =>
    rw [rankingsStep]
    cases hnorm : normalize d with
    | none => rfl
    | some kd =>
      have hkd : kd ≠ k := by
        intro e
        exact hc (by simp [cellKey, hnorm, e])
      exact alookup_dinsert_ne _ hkd _

theorem rankingsStep_match {normalize : FName → Option FName} {k : FName}
    {c : Option FName} (hc : cellKey normalize c = some k) (m : Rankings) (i : Nat) :
    rankingsStep normalize m i c = dinsert m k (i + 1) := by
  cases c with
  | none => exact absurd hc (by simp [cellKey])
  | some d =>
    rw [rankingsStep]
    cases hnorm : normalize d with
    | none =>
      simp [cellKey, hnorm] at hc
    | some kd =>
      have he : kd = k := by
        simp [cellKey, hnorm] at hc
        exact hc
      rw [he]

theorem buildRankingsFrom_no_match {normalize : FName → Option FName} {k : FName}
    {cells : List (Option FName)} (h : ∀ c ∈ cells, cellKey normalize c ≠ some k)
    (i : Nat) (m : Rankings) :
    alookup (buildRankingsFrom normalize i cells m) k = alookup m k := by
  induction cells generalizing i m with
  | nil => rfl
  | cons c cs ih =>
    have hc := h c (List.mem_cons_self c cs)
    have hcs : ∀ c' ∈ cs, cellKey normalize c' ≠ some k :=
      fun c' h' => h c' (List.mem_cons_of_mem c h')
    rw [buildRankingsFrom, ih hcs, alookup_rankingsStep_ne hc]

theorem buildRankingsFrom_last {normalize : FName → Option FName} {k : FName}
    {cells : List (Option FName)} {j : Nat}
    (hj : j < cells.length)
    (hkey : cellKey normalize (cells.get ⟨j, hj⟩) = some k)
    (hlast : ∀ j' (h' : j' < cells.length), j < j' →
      cellKey normalize (cells.get ⟨j', h'⟩) ≠ some k)
    (i0 : Nat) (m : Rankings) :
    alookup (buildRankingsFrom normalize i0 cells m) k = some (i0 + j + 1) := by
  induction cells generalizing i0 j m with
  | nil => exact absurd hj (by simp)
  | cons c cs ih =>
    cases j with
    | zero =>
      have hc : cellKey normalize c = some k := hkey
      have hnone : ∀ c' ∈ cs, cellKey normalize c' ≠ some k := by
        intro c' hmem
        obtain ⟨j', hj', hget⟩ := List.mem_iff_getElem.mp hmem
        have h' := hlast (j' + 1) (by simpa using Nat.succ_lt_succ hj') (Nat.succ_pos _)
        rw [List.get_eq_getElem] at h'
        simpa [hget] using h'
      rw [buildRankingsFrom, buildRankingsFrom_no_match hnone,
        rankingsStep_match hc]
      exact alookup_dinsert_self m k (i0 + 1)
    | succ j' =>
      have hj' : j' < cs.length := by simpa using Nat.lt_of_succ_lt_succ hj
      have hkey' : cellKey normalize (cs.get ⟨j', hj'⟩) = some k := hkey
      have hlast' : ∀ j'' (h'' : j'' < cs.length), j' < j'' →
          cellKey normalize (cs.get ⟨j'', h''⟩) ≠ some k := by
        intro j'' h'' hgt
        exact hlast (j'' + 1) (by simpa using Nat.succ_lt_succ h'') (Nat.succ_lt_succ hgt)
      rw [buildRankingsFrom,
        ih hj' hkey' hlast' (i0 + 1) (rankingsStep normalize m i0 c)]
      exact congrArg some (by omega)

/-! ## C9 -/

/-- C9: when several rows of the ranked master table normalize to the same
join identifier, the rank map retains the rank of the last such row (each
later `rankings[identifier] = rank` assignment overwrites the earlier
entry), and since positional ranks grow down the table this is the
numerically highest, i.e. worst, rank among the duplicated rows.  `cells`
is the `Design` column of the sorted table, whose row at 0-based position
`i` carries rank `i + 1`; `normalize` is the per-script cell normalization
(`extract_identifier` in `6.ranking_batch1.2.py`, strip-and-splitext in
`9_exluding_doublets.py`). -/
theorem C9_duplicate_identifier_last_wins (normalize : FName → Option FName)
    (cells : List (Option FName)) (k : FName) (i : Nat) (hi : i < cells.length)
    (hkey : cellKey normalize (cells.get ⟨i, hi⟩) = some k)
    (hlast : ∀ j (hj : j < cells.length), i < j →
      cellKey normalize (cells.get ⟨j, hj⟩) ≠ some k) :
    alookup (build_rankings normalize cells) k = some (i + 1) ∧
    ∀ j (hj : j < cells.length), cellKey normalize (cells.get ⟨j, hj⟩) = some k →
      j + 1 ≤ i + 1 := by
  constructor
  · have h := buildRankingsFrom_last hi hkey hlast 0 []
    simpa using h
  · intro j hj hkj
    by_contra hgt
    exact hlast j hj (by omega) hkj

/-- Witness for C9: two rows normalize to `s1_mpnn1`; the map returns the
rank of the second (worse) one. -/
theorem C9_duplicate_identifier_last_wins_witness :
    alookup (build_rankings extract_identifier
        [some ("a_s1_mpnn1_x".toList), some ("b_s1_mpnn1_y".toList),
         some ("s2_mpnn2".toList)]) ("s1_mpnn1".toList) = some 2 ∧
    ∀ j (hj : j < ([some ("a_s1_mpnn1_x".toList), some ("b_s1_mpnn1_y".toList),
        some ("s2_mpnn2".toList)] : List (Option FName)).length),
      cellKey extract_identifier
          (([some ("a_s1_mpnn1_x".toList), some ("b_s1_mpnn1_y".toList),
            some ("s2_mpnn2".toList)] : List (Option FName)).get ⟨j, hj⟩) =
        some ("s1_mpnn1".toList) → j + 1 ≤ 1 + 1 :=
  C9_duplicate_identifier_last_wins extract_identifier
    [some ("a_s1_mpnn1_x".toList), some ("b_s1_mpnn1_y".toList), some ("s2_mpnn2".toList)]
    ("s1_mpnn1".toList) 1 (by decide) (by decide) (by decide)

/-! ## C5 -/

/-- C5: a discovered candidate file is copied (under the name
`{subfolder_rank}_{global_rank}_{original_filename}`) if and only if both
the per-subfolder rank lookup and the global rank lookup succeed for its
extracted identifier; otherwise the file is skipped with a result recording
which lookup failed (`skippedNoRank` carries both lookup outcomes, as the
script's skip message prints them; a missing mother folder or an
unextractable identifier make the per-subfolder lookup fail and are skipped
with their own reported reasons). -/
theorem C5_copied_iff_both_lookups (individual : List (FName × Rankings)) (master : Rankings)
    (motherFolder : Option FName) (pdbFilename : FName) :
    ((∃ d, process_pdb individual master motherFolder pdbFilename = .copied d) ↔
      ((individualLookup individual motherFolder pdbFilename).isSome ∧
        (masterLookup master pdbFilename).isSome)) ∧
    (∀ ir mr, individualLookup individual motherFolder pdbFilename = some ir →
      masterLookup master pdbFilename = some mr →
      process_pdb individual master motherFolder pdbFilename =
        .copied (podiumName ir mr pdbFilename)) := by
  cases motherFolder with
  | none => simp [process_pdb, individualLookup]
  | some mf =>
    cases hid : extract_identifier pdbFilename with
    | none => simp [process_pdb, individualLookup, masterLookup, hid]
    | some ident =>
      cases hsub : alookup individual mf with
      | none =>
        cases hmr : alookup master ident with
        | none => simp [process_pdb, individualLookup, masterLookup, hid, hsub, hmr]
        | some mr => simp [process_pdb, individualLookup, masterLookup, hid, hsub, hmr]
      | some sub =>
        cases hir : alookup sub ident with
        | none =>
          cases hmr : alookup master ident with
          | none => simp [process_pdb, individualLookup, masterLookup, hid, hsub, hir, hmr]
          | some mr => simp [process_pdb, individualLookup, masterLookup, hid, hsub, hir, hmr]
        | some ir =>
          cases hmr : alookup master ident with
          | none => simp [process_pdb, individualLookup, masterLookup, hid, hsub, hir, hmr]
          | some mr => simp [process_pdb, individualLookup, masterLookup, hid, hsub, hir, hmr]

/-- Witness for C5 at a concrete file whose identifier resolves in both rank
maps. -/
theorem C5_copied_iff_both_lookups_witness :
    process_pdb [("m".toList, [("s1_mpnn2".toList, 4)])] [("s1_mpnn2".toList, 7)]
        (some ("m".toList)) ("d_s1_mpnn2_x.pdb".toList) =
      .copied (podiumName 4 7 ("d_s1_mpnn2_x.pdb".toList)) :=
  (C5_copied_iff_both_lookups [("m".toList, [("s1_mpnn2".toList, 4)])]
    [("s1_mpnn2".toList, 7)] (some ("m".toList)) ("d_s1_mpnn2_x.pdb".toList)).2
    4 7 (by decide) (by decide)

/-! ## C4 / C10 lemmas -/

theorem mem_file_rankings {rk : Rankings} {files : List FName} {e : FName × Nat × FName}
    (h : e ∈ file_rankings rk files) :
    resolve_rank rk e.1 = some e.2.1 ∧ e.1 ∈ files := by
  rw [file_rankings, List.mem_filterMap] at h
  obtain ⟨f, hf, he⟩ := h
  cases hr : resolve_rank rk f with
  | none => rw [hr] at he; simp at he
  | some r =>
    rw [hr] at he
    simp only [Option.map_some', Option.some.injEq] at he
    rw [← he]
    exact ⟨hr, hf⟩

theorem pairwise_of_total {α : Type} {S : α → α → Prop} (h : ∀ a b, S a b) :
    ∀ l : List α, l.Pairwise S := by
  intro l
  induction l with
  | nil => exact List.Pairwise.nil
  | cons x xs ih => exact List.pairwise_cons.mpr ⟨fun y _ => h x y, ih⟩

theorem stSort_rank_pairwise (l : List (FName × Nat × FName)) :
    (stSort rankLT l).Pairwise (fun a b => a.2.1 ≤ b.2.1) := by
  refine @stSort_pairwise _ rankLT _ (fun a b => a.2.1 ≤ b.2.1)
    (fun a b c hab hbc => le_trans hab hbc) l ?_
  refine pairwise_of_total (fun a b => ⟨fun hlt => ?_, fun hnlt => ?_⟩) l
  · unfold rankLT at hlt; omega
  · unfold rankLT at hnlt; omega

theorem find_best_and_worst_eq {rk : Rankings} {files : List FName}
    {b : FName × Nat × FName} {ws : List (FName × Nat × FName)}
    (h : find_best_and_worst rk files = some (b, ws)) :
    stSort rankLT (file_rankings rk files) = b :: ws := by
  rw [find_best_and_worst] at h
  cases hs : stSort rankLT (file_rankings rk files) with
  | nil => rw [hs] at h; simp at h
  | cons b' ws' =>
    rw [hs] at h
    simp only [Option.some.injEq, Prod.mk.injEq] at h
    rw [h.1, h.2]

theorem group_actions_nil (rk : Rankings) :
    group_actions rk [] =
      (match find_best_and_worst rk [] with
       | none => []
       | some (b, ws) => (DupDest.unique, b.1) :: ws.map (fun w => (DupDest.notUnique, w.1))) :=
  rfl

theorem group_actions_cons_cons (rk : Rankings) (a b : FName) (t : List FName) :
    group_actions rk (a :: b :: t) =
      (match find_best_and_worst rk (a :: b :: t) with
       | none => []
       | some (bst, ws) =>
         (DupDest.unique, bst.1) :: ws.map (fun w => (DupDest.notUnique, w.1))) :=
  rfl

theorem mem_group_actions {rk : Rankings} {g : List FName} {d : DupDest} {f : FName}
    (h : (d, f) ∈ group_actions rk g) : f ∈ g := by
  match g with
  | [f'] =>
    simp only [group_actions, List.mem_singleton, Prod.mk.injEq] at h
    rw [h.2]
    exact List.mem_singleton.mpr rfl
  | [] =>
    rw [group_actions_nil rk] at h
    cases hfw : find_best_and_worst rk [] with
    | none => rw [hfw] at h; simp at h
    | some bw =>
      obtain ⟨bst, ws⟩ := bw
      have hsort := find_best_and_worst_eq hfw
      have hb : bst ∈ file_rankings rk ([] : List FName) :=
        ((stSort_perm (file_rankings rk [])).mem_iff).mp
          (hsort ▸ List.mem_cons_self bst ws)
      simp [file_rankings] at hb
  | a :: b :: t =>
    rw [group_actions_cons_cons rk a b t] at h
    cases hfw : find_best_and_worst rk (a :: b :: t) with
    | none => rw [hfw] at h; simp at h
    | some bw =>
      obtain ⟨bst, ws⟩ := bw
      have hsort := find_best_and_worst_eq hfw
      have hperm : (bst :: ws).Perm (file_rankings rk (a :: b :: t)) :=
        hsort ▸ stSort_perm (file_rankings rk (a :: b :: t))
      rw [hfw] at h
      rcases List.mem_cons.mp h with heq | hmap
      · have hb : bst ∈ file_rankings rk (a :: b :: t) :=
          hperm.mem_iff.mp (List.mem_cons_self bst ws)
        have hmem := (mem_file_rankings hb).2
        have hf : f = bst.1 := ((Prod.mk.injEq ..).mp heq).2
        rw [hf]
        exact hmem
      · obtain ⟨w, hw, hweq⟩ := List.mem_map.mp hmap
        have hwfr : w ∈ file_rankings rk (a :: b :: t) :=
          hperm.mem_iff.mp (List.mem_cons_of_mem bst hw)
        have hmem := (mem_file_rankings hwfr).2
        have hf : f = w.1 := ((Prod.mk.injEq ..).mp hweq.symm).2
        rw [hf]
        exact hmem

/-! ## C4 -/

/-- C4 counterexample: a duplicate group (grouping token `1`) with two
members, one resolving to global rank 1 and one unresolved; the unresolved
member `y_s1_zz.pdb` is copied to neither output directory, although the
claim routes every non-canonical member — resolved or not — to
`not_unique`. -/
theorem C4_counterexample :
    ("y_s1_zz.pdb".toList) ∈
        sGroup ["x_s1_d1.pdb".toList, "y_s1_zz.pdb".toList] ("1".toList) ∧
    2 ≤ (sGroup ["x_s1_d1.pdb".toList, "y_s1_zz.pdb".toList] ("1".toList)).length ∧
    resolve_rank [("x_s1_d1".toList, 1)] ("y_s1_zz.pdb".toList) = none ∧
    (DupDest.notUnique, "y_s1_zz.pdb".toList) ∉
      dup_actions [("x_s1_d1".toList, 1)] ["x_s1_d1.pdb".toList, "y_s1_zz.pdb".toList] ∧
    (DupDest.unique, "y_s1_zz.pdb".toList) ∉
      dup_actions [("x_s1_d1".toList, 1)] ["x_s1_d1.pdb".toList, "y_s1_zz.pdb".toList] := by
  decide

/-- C4 (amended): in every duplicate group with more than one member, the
resolved members are stably sorted by global rank; the head of that sort —
a resolved member of numerically lowest rank — is the canonical member
copied to `unique`, and exactly the remaining resolved members are copied
to `not_unique`.  Members whose identifier does not resolve are excluded
from the comparison, reported, and copied to neither output directory (the
spec's routing of unresolved members to `not_unique` does not happen); a
group with no resolved member produces no copies at all. -/
theorem C4_duplicate_group_routing_amended (rk : Rankings) (g : List FName)
    (hlen : 2 ≤ g.length) :
    (file_rankings rk g = [] → group_actions rk g = []) ∧
    (∀ b ws, stSort rankLT (file_rankings rk g) = b :: ws →
      group_actions rk g =
          (DupDest.unique, b.1) :: ws.map (fun w => (DupDest.notUnique, w.1)) ∧
        (∀ e ∈ file_rankings rk g, b.2.1 ≤ e.2.1) ∧
        (b :: ws).Perm (file_rankings rk g)) ∧
    (∀ f ∈ g, resolve_rank rk f = none →
      (DupDest.unique, f) ∉ group_actions rk g ∧
        (DupDest.notUnique, f) ∉ group_actions rk g) := by
  rcases g with _ | ⟨a, g'⟩
  · simp at hlen
  rcases g' with _ | ⟨b0, t⟩
  · simp at hlen
  refine ⟨?_, ?_, ?_⟩
  · intro hfr
    have hfw : find_best_and_worst rk (a :: b0 :: t) = none := by
      rw [find_best_and_worst, hfr]
      rfl
    rw [group_actions_cons_cons, hfw]
  · intro b ws hsort
    have hfw : find_best_and_worst rk (a :: b0 :: t) = some (b, ws) := by
      rw [find_best_and_worst, hsort]
    have hperm : (b :: ws).Perm (file_rankings rk (a :: b0 :: t)) :=
      hsort ▸ stSort_perm (file_rankings rk (a :: b0 :: t))
    refine ⟨by rw [group_actions_cons_cons, hfw], ?_, hperm⟩
    have hpw := stSort_rank_pairwise (file_rankings rk (a :: b0 :: t))
    rw [hsort] at hpw
    intro e he
    rcases List.mem_cons.mp (hperm.mem_iff.mpr he) with rfl | hws
    · exact le_refl _
    · exact List.rel_of_pairwise_cons hpw hws
  · intro f _ hres
    constructor
    · intro hin
      rw [group_actions_cons_cons] at hin
      cases hfw : find_best_and_worst rk (a :: b0 :: t) with
      | none => rw [hfw] at hin; simp at hin
      | some bw =>
        obtain ⟨bst, ws⟩ := bw
        have hperm : (bst :: ws).Perm (file_rankings rk (a :: b0 :: t)) :=
          find_best_and_worst_eq hfw ▸ stSort_perm (file_rankings rk (a :: b0 :: t))
        rw [hfw] at hin
        rcases List.mem_cons.mp hin with heq | hmap
        · have hfb : f = bst.1 := ((Prod.mk.injEq ..).mp heq).2
          have hb : bst ∈ file_rankings rk (a :: b0 :: t) :=
            hperm.mem_iff.mp (List.mem_cons_self bst ws)
          have := (mem_file_rankings hb).1
          rw [← hfb, hres] at this
          exact absurd this (by simp)
        · obtain ⟨w, _, hweq⟩ := List.mem_map.mp hmap
          exact absurd ((Prod.mk.injEq ..).mp hweq.symm).1 (by simp)
    · intro hin
      rw [group_actions_cons_cons] at hin
      cases hfw : find_best_and_worst rk (a :: b0 :: t) with
      | none => rw [hfw] at hin; simp at hin
      | some bw =>
        obtain ⟨bst, ws⟩ := bw
        have hperm : (bst :: ws).Perm (file_rankings rk (a :: b0 :: t)) :=
          find_best_and_worst_eq hfw ▸ stSort_perm (file_rankings rk (a :: b0 :: t))
        rw [hfw] at hin
        rcases List.mem_cons.mp hin with heq | hmap
        · exact absurd ((Prod.mk.injEq ..).mp heq).1 (by simp)
        · obtain ⟨w, hw, hweq⟩ := List.mem_map.mp hmap
          have hfw2 : f = w.1 := ((Prod.mk.injEq ..).mp hweq.symm).2
          have hwfr : w ∈ file_rankings rk (a :: b0 :: t) :=
            hperm.mem_iff.mp (List.mem_cons_of_mem bst hw)
          have := (mem_file_rankings hwfr).1
          rw [← hfw2, hres] at this
          exact absurd this (by simp)

/-- Witness for the amended C4: the unresolved member of the concrete
two-member group is routed to neither directory. -/
theorem C4_duplicate_group_routing_amended_witness :
    (DupDest.unique, "y_s1_zz.pdb".toList) ∉
        group_actions [("x_s1_d1".toList, 1)] ["x_s1_d1.pdb".toList, "y_s1_zz.pdb".toList] ∧
    (DupDest.notUnique, "y_s1_zz.pdb".toList) ∉
      group_actions [("x_s1_d1".toList, 1)] ["x_s1_d1.pdb".toList, "y_s1_zz.pdb".toList] :=
  (C4_duplicate_group_routing_amended [("x_s1_d1".toList, 1)]
    ["x_s1_d1.pdb".toList, "y_s1_zz.pdb".toList] (by decide)).2.2
    ("y_s1_zz.pdb".toList) (by decide) (by decide)

/-! ## C10 -/

/-- C10: a candidate file whose name contains no `_s<digits>_` grouping
token belongs to no duplicate group and appears in no copy action of the
Duplicate Resolution stage: it is silently omitted from both the `unique`
and the `not_unique` outputs. -/
theorem C10_no_token_silently_omitted (rk : Rankings) (files : List FName) (f : FName)
    (_hf : f ∈ files) (h : extract_s_number f = none) :
    (∀ k ∈ sKeys files, f ∉ sGroup files k) ∧
      ∀ d : DupDest, (d, f) ∉ dup_actions rk files := by
  constructor
  · intro k _ hmem
    rw [sGroup, List.mem_filter, h] at hmem
    simp at hmem
  · intro d hin
    rw [dup_actions, List.mem_flatten] at hin
    obtain ⟨l, hl, hinl⟩ := hin
    obtain ⟨k, _, rfl⟩ := List.mem_map.mp hl
    have hfg := mem_group_actions hinl
    rw [sGroup, List.mem_filter, h] at hfg
    simp at hfg

/-- Witness for C10 at a concrete pooled directory with one tokenless file. -/
theorem C10_no_token_silently_omitted_witness :
    ((DupDest.unique, "nogroup.pdb".toList) ∉
        dup_actions [] ["nogroup.pdb".toList, "a_s1_b.pdb".toList]) ∧
    ((DupDest.notUnique, "nogroup.pdb".toList) ∉
        dup_actions [] ["nogroup.pdb".toList, "a_s1_b.pdb".toList]) :=
  ⟨(C10_no_token_silently_omitted [] ["nogroup.pdb".toList, "a_s1_b.pdb".toList]
      ("nogroup.pdb".toList) (by decide) (by decide)).2 DupDest.unique,
   (C10_no_token_silently_omitted [] ["nogroup.pdb".toList, "a_s1_b.pdb".toList]
      ("nogroup.pdb".toList) (by decide) (by decide)).2 DupDest.notUnique⟩

/-! ## C6 lemmas -/

theorem dupStep_preserves {content : FName → FName} {st : DupFs}
    {k : DupDest × FName} {v : FName} (h : st k = some v) (a : DupDest × FName) :
    dupStep content st a k = some v := by
  cases ha : st a with
  | some w => simp [dupStep, ha, h]
  | none =>
    simp only [dupStep, ha]
    by_cases hk : k = a
    · rw [hk] at h; rw [h] at ha; exact absurd ha (by simp)
    · simp [hk, h]

theorem foldl_dupStep_preserves {content : FName → FName}
    (acts : List (DupDest × FName)) (st : DupFs)
    {k : DupDest × FName} {v : FName} (h : st k = some v) :
    acts.foldl (dupStep content) st k = some v := by
  induction acts generalizing st with
  | nil => exact h
  | cons a rest ih => exact ih _ (dupStep_preserves h a)

theorem dupStep_apply_isSome (content : FName → FName) (st : DupFs) (a : DupDest × FName) :
    (dupStep content st a a).isSome = true := by
  cases ha : st a with
  | some w => simp [dupStep, ha]
  | none => simp [dupStep, ha]

theorem foldl_dupStep_covers {content : FName → FName}
    (acts : List (DupDest × FName)) (st : DupFs)
    {a : DupDest × FName} (ha : a ∈ acts) :
    (acts.foldl (dupStep content) st a).isSome = true := by
  induction acts generalizing st with
  | nil => simp at ha
  | cons a0 rest ih =>
    rw [List.foldl_cons]
    rcases List.mem_cons.mp ha with rfl | ha'
    · cases hv : dupStep content st a a with
      | some v =>
        exact Option.isSome_iff_exists.mpr ⟨v, foldl_dupStep_preserves rest _ hv⟩
      | none =>
        have hs := dupStep_apply_isSome content st a
        rw [hv] at hs
        exact absurd hs (by simp)
    · exact ih _ ha'

theorem foldl_dupStep_id {content : FName → FName}
    (acts : List (DupDest × FName)) (st : DupFs)
    (h : ∀ a ∈ acts, (st a).isSome = true) :
    acts.foldl (dupStep content) st = st := by
  induction acts with
  | nil => rfl
  | cons a0 rest ih =>
    have h0 := h a0 (List.mem_cons_self a0 rest)
    have hstep : dupStep content st a0 = st := by
      cases ha : st a0 with
      | some v => simp [dupStep, ha]
      | none => rw [ha] at h0; exact absurd h0 (by simp)
    rw [List.foldl_cons, hstep]
    exact ih (fun a haa => h a (List.mem_cons_of_mem a0 haa))

/-! ## C6 -/

/-- C6: both stages are idempotent over reruns on unchanged inputs.  Rank
Join clears every podium directory before writing, so a second run rebuilds
exactly the same podium state from the unchanged inputs; Duplicate
Resolution skips every destination that already exists, so a second run
leaves the `unique` / `not_unique` state of the first run untouched: the
output file sets (keys and contents) are identical, with no accumulated
duplicates and no changed rank tags. -/
theorem C6_rerun_idempotent (individual : List (FName × Rankings)) (master : Rankings)
    (pdbs : List PdbInput) (rk : Rankings) (files : List FName)
    (content : FName → FName) (s : PodiumFs) (t : DupFs) :
    run_rank_join individual master pdbs (run_rank_join individual master pdbs s) =
      run_rank_join individual master pdbs s ∧
    run_dup_resolution rk files content (run_dup_resolution rk files content t) =
      run_dup_resolution rk files content t := by
  constructor
  · rfl
  · exact foldl_dupStep_id _ _
      (fun a ha => foldl_dupStep_covers (dup_actions rk files) t ha)

/-! ## C7 -/

/-- C7 counterexample: the aggregator's read loop has no identifier-column
check.  A table whose columns lack `Design` parses fine, so its rows are
appended to the subfolder list and to the master list; here its single row
appears (tagged with provenance) in the master concatenation. -/
theorem C7_counterexample :
    ("sub".toList, "f.csv".toList, ["0.5".toList]) ∈
        master_rows [("sub".toList, [("f.csv".toList,
          some ⟨["Average_i_pTM".toList], [["0.5".toList]]⟩)])] ∧
    "Design".toList ∉ (⟨["Average_i_pTM".toList], [["0.5".toList]]⟩ : Table).cols := by
  decide

/-- C7 (amended): in the Score Aggregator's read loop only read failures
exclude a table: a file that raises on `pd.read_csv` is warned about and
contributes no rows, while every table that parses contributes all of its
rows (tagged with subfolder and file of origin) to its per-subfolder table
and to the master table, whether or not the design-identifier column
`Design` is among its columns — the identifier-column rejection described
by the spec happens only in the downstream stages, on the merged outputs. -/
theorem C7_no_column_check_amended (inputs : List (FName × List (FName × Option Table)))
    (subdir n : FName) (files : List (FName × Option Table)) (t : Table)
    (hsub : (subdir, files) ∈ inputs) (hfile : (n, some t) ∈ files) :
    (∀ row ∈ t.rows, (subdir, n, row) ∈ master_rows inputs) ∧
    (∀ sub' n' row, (sub', n', row) ∈ master_rows inputs →
      ∃ files' t', (sub', files') ∈ inputs ∧ (n', some t') ∈ files' ∧ row ∈ t'.rows) := by
  constructor
  · intro row hrow
    rw [master_rows, List.mem_flatten]
    refine ⟨subdir_rows subdir files, List.mem_map.mpr ⟨(subdir, files), hsub, rfl⟩, ?_⟩
    rw [subdir_rows, List.mem_flatten]
    refine ⟨tag_rows subdir n t, List.mem_map.mpr ⟨(n, some t), hfile, rfl⟩, ?_⟩
    rw [tag_rows, List.mem_map]
    exact ⟨row, hrow, rfl⟩
  · intro sub' n' row h
    rw [master_rows, List.mem_flatten] at h
    obtain ⟨l, hl, hrow⟩ := h
    obtain ⟨⟨sd, fls⟩, hsd, rfl⟩ := List.mem_map.mp hl
    rw [subdir_rows, List.mem_flatten] at hrow
    obtain ⟨l2, hl2, hrow2⟩ := hrow
    obtain ⟨⟨nm, pt⟩, hnm, rfl⟩ := List.mem_map.mp hl2
    cases pt with
    | none => simp at hrow2
    | some tt =>
      have hrow3 : (sub', n', row) ∈ tag_rows sd nm tt := hrow2
      rw [tag_rows, List.mem_map] at hrow3
      obtain ⟨r, hr, heq⟩ := hrow3
      injection heq with h1 hrest
      injection hrest with h2 h3
      exact ⟨fls, tt, h1 ▸ hsd, h2 ▸ hnm, h3 ▸ hr⟩

/-- Witness for the amended C7 at a concrete Design-less parsed table. -/
theorem C7_no_column_check_amended_witness :
    ("su".toList, "g.csv".toList, ["0.7".toList, "1.2".toList]) ∈
      master_rows [("su".toList, [("g.csv".toList,
        some ⟨["Average_i_pTM".toList, "Average_i_pAE".toList],
          [["0.7".toList, "1.2".toList]]⟩)])] :=
  (C7_no_column_check_amended
    [("su".toList, [("g.csv".toList,
      some ⟨["Average_i_pTM".toList, "Average_i_pAE".toList],
        [["0.7".toList, "1.2".toList]]⟩)])]
    ("su".toList) ("g.csv".toList)
    [("g.csv".toList,
      some ⟨["Average_i_pTM".toList, "Average_i_pAE".toList],
        [["0.7".toList, "1.2".toList]]⟩)]
    ⟨["Average_i_pTM".toList, "Average_i_pAE".toList], [["0.7".toList, "1.2".toList]]⟩
    (by decide) (by decide)).1 ["0.7".toList, "1.2".toList] (by decide)

/-! ## C8 -/

/-- C8 counterexample: with the master ranking table missing (first branch
condition false), both stages that consume it exit with status 0, not with
a non-zero status as claimed. -/
theorem C8_counterexample :
    rank_join_exit false true true true = 0 ∧
    dup_resolution_exit false true true = 0 := by
  decide

/-- C8 (amended): every stage exits with status 0 on every branch — on
completion, including completion with zero work, and also when the master
ranking table is missing: the missing aggregate input is reported on
stdout and the stage returns normally, so the process status is 0 in every
case. -/
theorem C8_exit_status_amended :
    (∀ a b c d : Bool, rank_join_exit a b c d = 0) ∧
    (∀ a b c : Bool, dup_resolution_exit a b c = 0) ∧
    (∀ a : Bool, score_aggregator_exit a = 0) := by
  decide

/-- Witness for the amended C8 on the all-conditions-met branch. -/
theorem C8_exit_status_amended_witness :
    rank_join_exit true true true true = 0 :=
  C8_exit_status_amended.1 true true true true
